import Mathlib

/-!
Verification of the brute-force PDF password search in `src/pdf_crack.py`.

The file shallowly embeds the program: the alphabet normalizer `as_list`,
the human-readable number formatter `human_readable_numbers`, the oracle
wrapper `check_password`, and the search loop of `check_passwords`.
Machine integers of `np.product` are modelled as integers wrapped to the
signed 64-bit range; Python exceptions are modelled with `Except`;
`float` quantities (elapsed wall-clock time, the scaled figures fed to
f-string formatting) are idealized as exact rationals or exact natural
quotients, with round-half-even decimal rendering as Python uses.
-/

/-! ### Alphabet normalizer (`as_list`, lines 14-21)

A Python value passed as one alphabet specification: a single string, or a
`list` / `tuple` / `set` / `np.ndarray` of strings.  For the unordered
`set` the constructor stores the iteration order the running process
exhibits, which is fixed while the object is alive; `as_list` merely
materializes that order. -/

inductive PyVal where
  | str (s : String)
  | list (xs : List String)
  | tup (xs : List String)
  | set (xs : List String)
  | ndarray (xs : List String)
deriving DecidableEq

/-- Lines 14-21: `isinstance(l, (list, tuple, set, np.ndarray))` yields the
elements as a list; any other value (in particular a string, of any
length) becomes the one-element list `[l]`. -/
def as_list : PyVal → List String
  | .list xs => xs
  | .tup xs => xs
  | .set xs => xs
  | .ndarray xs => xs
  | .str s => [s]

/-- Line 56: `combination = [tuple(as_list(c)) for c in combination]`. -/
def normalize_combination (specs : List PyVal) : List (List String) :=
  specs.map as_list

/-! ### Search-space size (lines 59-60) -/

/-- The mathematical number of candidate tuples: the product of the
normalized alphabet lengths. -/
def searchSpace (L : List (List String)) : ℕ := (L.map List.length).prod

/-- Reduction of an integer to the signed 64-bit range, the wraparound
NumPy integer arithmetic performs silently. -/
def int64wrap (z : ℤ) : ℤ := (z + 2 ^ 63) % 2 ^ 64 - 2 ^ 63

/-- Line 60: `num_passwords = np.product([len(x) for x in combination])`.
NumPy folds the product in int64 arithmetic, wrapping at every step. -/
def np_product (l : List ℕ) : ℤ :=
  l.foldl (fun (acc : ℤ) (n : ℕ) => int64wrap (acc * (n : ℤ))) 1

/-! ### Candidate enumeration (lines 61 and 67) -/

/-- Line 61: `itertools.product(*combination)` — the leftmost alphabet is
the outermost (slowest) loop, the rightmost the innermost (fastest). -/
def pyproduct : List (List String) → List (List String)
  | [] => [[]]
  | a :: rest => a.flatMap (fun x => (pyproduct rest).map (fun t => x :: t))

/-- Line 67: `password = ''.join(password_tuple)` applied to every tuple,
in enumeration order. -/
def passwordsList (L : List (List String)) : List String :=
  (pyproduct L).map String.join

/-! ### The search loop (lines 62-73)

`loop oracle remaining count calls` returns the final value of `success`
(`none` for the untouched `False`, `some p` after the `break`), the final
value of the `count` variable — which the code increments only after a
failed attempt — and, as instrumentation, the number of times
`check_password` was invoked. -/

def loop (oracle : String → Bool) : List String → ℕ → ℕ → Option String × ℕ × ℕ
  | [], count, calls => (none, count, calls)
  | p :: rest, count, calls =>
    if oracle p then (some p, count, calls + 1)
    else loop oracle rest (count + 1) (calls + 1)

/-- The loop of `check_passwords` run on an already-normalized candidate
list, with the oracle abstracted to a boolean function. -/
def runSearch (oracle : String → Bool) (L : List (List String)) :
    Option String × ℕ × ℕ :=
  loop oracle (passwordsList L) 0 0

/-- Lines 45-73 end to end: normalize the combination, enumerate, loop. -/
def check_passwords (oracle : String → Bool) (specs : List PyVal) :
    Option String × ℕ × ℕ :=
  runSearch oracle (normalize_combination specs)

/-! ### The fallible oracle (lines 34-43) and exception propagation -/

/-- Outcome of `pikepdf.open` on one password: success, a
`PasswordError`, or any other exception carrying its message. -/
inductive OpenResult where
  | success
  | passwordError
  | otherError (e : String)
deriving DecidableEq

/-- Lines 34-43: only `PasswordError` is caught and turned into `False`;
opening successfully returns `True`; every other exception propagates. -/
def check_password (openPdf : String → OpenResult) (password : String) :
    Except String Bool :=
  match openPdf password with
  | .success => .ok true
  | .passwordError => .ok false
  | .otherError e => .error e

/-- The loop of lines 66-73 with the fallible oracle: an exception raised
inside `check_password` escapes the loop at once, carrying no counter.
The `count` and `calls` components record the loop state reached, which
the Python caller never observes on the exception path. -/
def loopExc (openPdf : String → OpenResult) :
    List String → ℕ → ℕ → Except String (Option String) × ℕ × ℕ
  | [], count, calls => (.ok none, count, calls)
  | p :: rest, count, calls =>
    match check_password openPdf p with
    | .error e => (.error e, count, calls + 1)
    | .ok true => (.ok (some p), count, calls + 1)
    | .ok false => loopExc openPdf rest (count + 1) (calls + 1)

/-- What the caller of `check_passwords` observes when the oracle can
raise: either the loop's result or the propagated exception. -/
def check_passwordsExc (openPdf : String → OpenResult) (specs : List PyVal) :
    Except String (Option String) :=
  (loopExc openPdf (passwordsList (normalize_combination specs)) 0 0).1

/-! ### Progress and summary rate computations (lines 74-84) -/

/-- Python division, which raises `ZeroDivisionError` on a zero
denominator: `none` models the raised exception. -/
def pydiv (a b : ℚ) : Option ℚ := if b = 0 then none else some (a / b)

/-- Line 77: `passwords_per_sec = count / elapsed_time`, computed
unconditionally on every progress event. -/
def passwords_per_sec (count : ℕ) (elapsed : ℚ) : Option ℚ :=
  pydiv (count : ℚ) elapsed

/-- Line 84: the summary's `count / total_time`, computed unconditionally
at termination. -/
def summary_rate (count : ℕ) (total_time : ℚ) : Option ℚ :=
  pydiv (count : ℚ) total_time

/-! ### Human-readable number formatting (lines 23-32) -/

/-- Line 30: `names = ['', 'thousand', 'million', 'billion', 'trillion',
'quadrillion']`. -/
def magnitude_names : List String :=
  ["", "thousand", "million", "billion", "trillion", "quadrillion"]

/-- Round-half-even division of naturals, the rounding Python applies
when formatting a quotient to a fixed number of decimals. -/
def divRoundHalfEven (a b : ℕ) : ℕ :=
  let q := a / b
  let r := a % b
  if 2 * r < b then q
  else if b < 2 * r then q + 1
  else if q % 2 = 0 then q else q + 1

/-- Left-pad a digit string with zeros to width `d`. -/
def padZeros (s : String) (d : ℕ) : String :=
  String.mk (List.replicate (d - s.length) '0') ++ s

/-- Line 32's f-string `f'\x7bn / 10**(3 * idx):.\x7bdecimals\x7df\x7d'`:
render the exact quotient `n / 10 ^ e` with `d` decimal places,
round-half-even, omitting the decimal point when `d = 0`. -/
def format_scaled (n e d : ℕ) : String :=
  let m := divRoundHalfEven (n * 10 ^ d) (10 ^ e)
  if d = 0 then toString m
  else toString (m / 10 ^ d) ++ "." ++ padZeros (toString (m % 10 ^ d)) d

/-- Lines 23-32: numbers below 1000 are rendered by `str`; otherwise the
magnitude index is `max 0 (min (len names - 1) (log10 n div 3))` and the
scaled figure is rendered with the requested decimals followed by the
magnitude name.  The argument is already a natural number, so line 27's
`round(n)` is the identity, and `math.log10` is exact. -/
def human_readable_numbers (n : ℕ) (decimals : ℕ) : String :=
  if n < 1000 then toString n
  else
    let idx := max 0 (min (magnitude_names.length - 1) (Nat.log 10 n / 3))
    format_scaled n (3 * idx) decimals ++ " " ++ magnitude_names.getD idx ""

/-! ### Exactness and wraparound of the int64 space-size product -/

lemma int64wrap_eq_self {z : ℤ} (h0 : 0 ≤ z) (h1 : z < 2 ^ 63) :
    int64wrap z = z := by
  unfold int64wrap
  rw [Int.emod_eq_of_lt (by omega) (by omega)]
  omega

lemma np_product_foldl_exact (l : List ℕ) :
    ∀ acc : ℤ, 0 ≤ acc → (∀ x ∈ l, 0 < x) → acc * (l.prod : ℤ) < 2 ^ 63 →
      l.foldl (fun (acc : ℤ) (n : ℕ) => int64wrap (acc * (n : ℤ))) acc = acc * (l.prod : ℤ) := by
  induction l with
  | nil => intro acc _ _ _; simp
  | cons x l ih =>
    intro acc hacc hpos hlt
    have hx : 0 < x := hpos x (List.mem_cons_self x l)
    have hl : ∀ y ∈ l, 0 < y := fun y hy => hpos y (List.mem_cons_of_mem x hy)
    have hprod : (1 : ℤ) ≤ (l.prod : ℤ) := by
      exact_mod_cast Nat.one_le_iff_ne_zero.2 (Nat.pos_iff_ne_zero.1 (List.prod_pos hl))
    have hcast : ((x :: l).prod : ℤ) = (x : ℤ) * (l.prod : ℤ) := by
      rw [List.prod_cons]; push_cast; ring
    have hnn : 0 ≤ acc * (x : ℤ) :=
      mul_nonneg hacc (by exact_mod_cast Nat.zero_le x)
    have hstep : acc * (x : ℤ) < 2 ^ 63 := by
      calc acc * (x : ℤ) ≤ acc * (x : ℤ) * (l.prod : ℤ) :=
            le_mul_of_one_le_right hnn hprod
        _ = acc * ((x :: l).prod : ℤ) := by rw [hcast]; ring
        _ < 2 ^ 63 := hlt
    have hrec : acc * (x : ℤ) * (l.prod : ℤ) < 2 ^ 63 := by
      calc acc * (x : ℤ) * (l.prod : ℤ) = acc * ((x :: l).prod : ℤ) := by
            rw [hcast]; ring
        _ < 2 ^ 63 := hlt
    calc (x :: l).foldl (fun (acc : ℤ) (n : ℕ) => int64wrap (acc * (n : ℤ))) acc
        = l.foldl (fun (acc : ℤ) (n : ℕ) => int64wrap (acc * (n : ℤ))) (int64wrap (acc * (x : ℤ))) := rfl
      _ = l.foldl (fun (acc : ℤ) (n : ℕ) => int64wrap (acc * (n : ℤ))) (acc * (x : ℤ)) := by
            rw [int64wrap_eq_self hnn hstep]
      _ = acc * (x : ℤ) * (l.prod : ℤ) := ih (acc * (x : ℤ)) hnn hl hrec
      _ = acc * ((x :: l).prod : ℤ) := by rw [hcast]; ring

/-- C1 (amended): the search-space size `num_passwords` is the product of
the normalized alphabet lengths computed in wrapping signed 64-bit
arithmetic; whenever every alphabet is nonempty and the true product is
below `2 ^ 63`, no wrap occurs and the computed value equals the true
product. -/
theorem np_product_exact (L : List (List String)) (h1 : ∀ a ∈ L, a ≠ [])
    (h2 : searchSpace L < 2 ^ 63) :
    np_product (L.map List.length) = (searchSpace L : ℤ) := by
  have hpos : ∀ x ∈ L.map List.length, 0 < x := by
    intro x hx
    obtain ⟨a, ha, rfl⟩ := List.mem_map.1 hx
    exact List.length_pos.2 (h1 a ha)
  have h2i : (1 : ℤ) * ((L.map List.length).prod : ℤ) < 2 ^ 63 := by
    rw [one_mul]
    exact_mod_cast h2
  have := np_product_foldl_exact (L.map List.length) 1 (by norm_num) hpos h2i
  simpa [np_product, searchSpace] using this

/-- C1 witness: a concrete small candidate list where the int64 product
is exact. -/
theorem np_product_exact_witness :
    (∀ a ∈ [["a", "b"], ["0", "1"]], a ≠ ([] : List String)) ∧
    searchSpace [["a", "b"], ["0", "1"]] < 2 ^ 63 ∧
    np_product ([["a", "b"], ["0", "1"]].map List.length) =
      (searchSpace [["a", "b"], ["0", "1"]] : ℤ) :=
  ⟨by decide, by decide, np_product_exact [["a", "b"], ["0", "1"]] (by decide) (by decide)⟩

set_option maxRecDepth 8000 in
/-- C1 counterexample: with 64 two-symbol alphabets the true search-space
size is `2 ^ 64`, but `np.product` silently wraps to `0`: the computation
is not overflow-safe. -/
theorem np_product_wraps_counterexample :
    np_product ((List.replicate 64 (["a", "b"] : List String)).map List.length) = 0 ∧
    searchSpace (List.replicate 64 (["a", "b"] : List String)) = 2 ^ 64 ∧
    np_product ((List.replicate 64 (["a", "b"] : List String)).map List.length) ≠
      (searchSpace (List.replicate 64 (["a", "b"] : List String)) : ℤ) :=
  ⟨by decide, by decide, by decide⟩

/-! ### The human-readable formatter -/

/-- C6: the formatter renders `n < 1000` as-is; for `n ≥ 1000` it scales
by the magnitude `min 5 (log10 n / 3)` — the floor of `log10 n / 3`
clamped to the five magnitude names — and renders with the requested
decimals; `1` gives `"1"`, `1500` with one decimal gives
`"1.5 thousand"`, `2300000` with zero decimals gives `"2 million"`, and
`10 ^ 18`, beyond quadrillion, still renders using the quadrillion
scale. -/
theorem human_readable_numbers_spec :
    (∀ n d : ℕ, n < 1000 → human_readable_numbers n d = toString n) ∧
    (∀ n d : ℕ, 1000 ≤ n → human_readable_numbers n d =
      format_scaled n (3 * min 5 (Nat.log 10 n / 3)) d ++ " " ++
        magnitude_names.getD (min 5 (Nat.log 10 n / 3)) "") ∧
    human_readable_numbers 1 0 = "1" ∧
    human_readable_numbers 1500 1 = "1.5 thousand" ∧
    human_readable_numbers 2300000 0 = "2 million" ∧
    human_readable_numbers (10 ^ 18) 0 = "1000 quadrillion" := by
  have hgen : ∀ n d : ℕ, 1000 ≤ n → human_readable_numbers n d =
      format_scaled n (3 * min 5 (Nat.log 10 n / 3)) d ++ " " ++
        magnitude_names.getD (min 5 (Nat.log 10 n / 3)) "" := by
    intro n d h
    unfold human_readable_numbers
    rw [if_neg (by omega)]
    norm_num [magnitude_names]
  refine ⟨?_, hgen, ?_, ?_, ?_, ?_⟩
  · intro n d h
    unfold human_readable_numbers
    rw [if_pos h]
  · decide
  · have hl : Nat.log 10 1500 = 3 :=
      Nat.log_eq_of_pow_le_of_lt_pow (by norm_num) (by norm_num)
    rw [hgen 1500 1 (by norm_num), hl]
    norm_num
    decide
  · have hl : Nat.log 10 2300000 = 6 :=
      Nat.log_eq_of_pow_le_of_lt_pow (by norm_num) (by norm_num)
    rw [hgen 2300000 0 (by norm_num), hl]
    norm_num
    decide
  · have hl : Nat.log 10 (10 ^ 18) = 18 :=
      Nat.log_eq_of_pow_le_of_lt_pow (by norm_num) (by norm_num)
    rw [hgen (10 ^ 18) 0 (by norm_num), hl]
    norm_num
    decide

/-- C6 witness: the below-1000 clause applied at `999`. -/
theorem human_readable_numbers_spec_witness :
    (999 : ℕ) < 1000 ∧ human_readable_numbers 999 2 = toString (999 : ℕ) :=
  ⟨by decide, human_readable_numbers_spec.1 999 2 (by decide)⟩

/-! ### Length, membership and order of the enumeration -/

lemma searchSpace_cons (a : List String) (L : List (List String)) :
    searchSpace (a :: L) = a.length * searchSpace L := by
  simp [searchSpace]

lemma sum_map_const {α : Type} (l : List α) (c : ℕ) :
    (l.map (fun _ => c)).sum = l.length * c := by
  induction l with
  | nil => simp
  | cons x l ih => simp [ih, Nat.succ_mul, Nat.add_comm]

lemma length_pyproduct (L : List (List String)) :
    (pyproduct L).length = searchSpace L := by
  induction L with
  | nil => simp [pyproduct, searchSpace]
  | cons a L ih =>
    rw [searchSpace_cons, ← ih, pyproduct, List.length_flatMap]
    have hc : (List.length ∘ fun x : String => (pyproduct L).map (fun t => x :: t)) =
        fun _ : String => (pyproduct L).length := by
      funext x
      simp
    rw [hc, sum_map_const]

/-- The mixed-radix characterization of the enumeration order: the
candidate at index `i` picks, at each position, the symbol whose index is
`i` divided by the size of the remaining suffix space — so the first
position varies slowest and the last position varies fastest. -/
def mixedRadix : List (List String) → ℕ → Option (List String)
  | [], i => if i = 0 then some [] else none
  | a :: L, i =>
    (a[i / searchSpace L]?).bind
      (fun x => (mixedRadix L (i % searchSpace L)).map (fun t => x :: t))

lemma getElem?_flatMap_const_length (l : List String)
    (f : String → List (List String)) (N : ℕ)
    (hN : ∀ x, (f x).length = N) (i : ℕ) :
    (l.flatMap f)[i]? = (l[i / N]?).bind (fun x => (f x)[i % N]?) := by
  rcases Nat.eq_zero_or_pos N with h0 | hpos
  · have hf : ∀ x, f x = [] := fun x => List.length_eq_zero.1 (by rw [hN x, h0])
    have hnil : l.flatMap f = [] := by
      induction l with
      | nil => rfl
      | cons y l ih => rw [List.flatMap_cons, hf y, List.nil_append, ih]
    rw [hnil]
    cases h : l[i / N]? with
    | none => simp
    | some x => simp [hf x]
  · induction l generalizing i with
    | nil => simp
    | cons y l ih =>
      rw [List.flatMap_cons]
      by_cases hi : i < N
      · rw [List.getElem?_append_left (by rw [hN y]; exact hi)]
        rw [Nat.div_eq_of_lt hi, Nat.mod_eq_of_lt hi]
        simp
      · push_neg at hi
        obtain ⟨j, rfl⟩ := Nat.exists_eq_add_of_le hi
        rw [List.getElem?_append_right (by rw [hN y]; omega), hN y]
        have hd : (N + j) / N = j / N + 1 := by
          rw [Nat.add_comm]; exact Nat.add_div_right j hpos
        have hm : (N + j) % N = j % N := Nat.add_mod_left N j
        rw [Nat.add_sub_cancel_left, ih j, hd, hm, List.getElem?_cons_succ]

lemma pyproduct_getElem (L : List (List String)) (i : ℕ) :
    (pyproduct L)[i]? = mixedRadix L i := by
  induction L generalizing i with
  | nil =>
    cases i with
    | zero => rfl
    | succ n => rfl
  | cons a L ih =>
    rw [pyproduct, mixedRadix]
    rw [getElem?_flatMap_const_length a _ (searchSpace L)
      (fun x => by rw [List.length_map, length_pyproduct]) i]
    cases h : a[i / searchSpace L]? with
    | none => rfl
    | some x => simp [List.getElem?_map, ih]

/-! ### Multiplicity of each combination in the enumeration -/

/-- The number of times `itertools.product` yields the tuple `t`: the
product over the positions of the multiplicity of `t`'s symbol in that
position's alphabet.  It is `1` exactly when every position offers the
symbol exactly once, and `0` when the tuple is not a combination of the
candidate list at all. -/
def combCount : List (List String) → List String → ℕ
  | [], [] => 1
  | [], _ :: _ => 0
  | _ :: _, [] => 0
  | a :: L, x :: t => a.count x * combCount L t

lemma count_map_cons (y x : String) (t : List String) (l : List (List String)) :
    (l.map (fun u => y :: u)).count (x :: t) = if y = x then l.count t else 0 := by
  induction l with
  | nil => simp
  | cons u l ih =>
    by_cases h : y = x
    · subst h
      by_cases hu : u = t
      · subst hu
        simp [List.count_cons, ih]
      · simp [List.count_cons, ih, hu]
    · simp [List.count_cons, ih, h]

lemma count_flatMap_cons (a : List String) (P : List (List String))
    (x : String) (t : List String) :
    (a.flatMap (fun y => P.map (fun u => y :: u))).count (x :: t) =
      a.count x * P.count t := by
  induction a with
  | nil => simp
  | cons y a ih =>
    rw [List.flatMap_cons, List.count_append, ih, count_map_cons]
    by_cases h : y = x
    · subst h
      rw [if_pos rfl, List.count_cons_self]
      ring
    · rw [if_neg h, List.count_cons_of_ne (fun hh => h hh.symm)]
      omega

lemma count_pyproduct (L : List (List String)) (t : List String) :
    (pyproduct L).count t = combCount L t := by
  induction L generalizing t with
  | nil => cases t <;> simp [pyproduct, combCount]
  | cons a L ih =>
    cases t with
    | nil =>
      have : ([] : List String) ∉ pyproduct (a :: L) := by
        intro hmem
        rw [pyproduct] at hmem
        obtain ⟨x, _, hx⟩ := List.mem_flatMap.1 hmem
        obtain ⟨u, _, he⟩ := List.mem_map.1 hx
        exact List.cons_ne_nil x u he
      rw [List.count_eq_zero.2 this]
      rfl
    | cons x t =>
      rw [pyproduct, count_flatMap_cons, ih]
      rfl

/-! ### Behaviour of the search loop -/

lemma loop_all_false (oracle : String → Bool) :
    ∀ (ps : List String) (c k : ℕ), (∀ q ∈ ps, oracle q = false) →
      loop oracle ps c k = (none, c + ps.length, k + ps.length) := by
  intro ps
  induction ps with
  | nil => intro c k _; rfl
  | cons p ps ih =>
    intro c k h
    rw [loop, h p (List.mem_cons_self p ps), if_neg (by simp)]
    rw [ih (c + 1) (k + 1) (fun q hq => h q (List.mem_cons_of_mem p hq))]
    simp [List.length_cons]
    omega

lemma loop_found (oracle : String → Bool) :
    ∀ (pre : List String) (p : String) (post : List String) (c k : ℕ),
      (∀ q ∈ pre, oracle q = false) → oracle p = true →
      loop oracle (pre ++ p :: post) c k =
        (some p, c + pre.length, k + pre.length + 1) := by
  intro pre
  induction pre with
  | nil =>
    intro p post c k _ hp
    rw [List.nil_append, loop, hp, if_pos rfl]
    rfl
  | cons q pre ih =>
    intro p post c k h hp
    rw [List.cons_append, loop, h q (List.mem_cons_self q pre), if_neg (by simp)]
    rw [ih p post (c + 1) (k + 1) (fun r hr => h r (List.mem_cons_of_mem q hr)) hp]
    simp [List.length_cons]
    omega

/-- C2: with an oracle that never matches, the engine makes exactly
`searchSpace L` oracle calls and counts exactly `searchSpace L` failed
attempts; the enumeration has exactly `searchSpace L` entries, each the
separator-free concatenation `String.join` of one tuple; every tuple `t`
is visited with multiplicity `combCount L t` — exactly once per distinct
Cartesian-product combination — and the entry at index `i` is given by
the mixed-radix formula `mixedRadix`, whose first position varies slowest
and last position varies fastest. -/
theorem enumeration_exhaustive (L : List (List String)) :
    runSearch (fun _ => false) L = (none, searchSpace L, searchSpace L) ∧
    (passwordsList L).length = searchSpace L ∧
    passwordsList L = (pyproduct L).map String.join ∧
    (∀ t : List String, (pyproduct L).count t = combCount L t) ∧
    (∀ i : ℕ, (pyproduct L)[i]? = mixedRadix L i) := by
  have hlen : (passwordsList L).length = searchSpace L := by
    rw [passwordsList, List.length_map, length_pyproduct]
  refine ⟨?_, hlen, rfl, fun t => count_pyproduct L t, fun i => pyproduct_getElem L i⟩
  rw [runSearch, loop_all_false _ _ 0 0 (fun q _ => rfl), hlen]
  simp

/-- C3: if the enumeration splits as `pre ++ p :: post` where the oracle
rejects everything in `pre` and accepts `p` — that is, the oracle first
matches on candidate number `pre.length + 1` — then the engine stops
there with success `p`, having invoked the oracle exactly
`pre.length + 1` times (the `count` variable, incremented only on
failures, ends at `pre.length`); no candidate of `post` is ever tried. -/
theorem oracle_match_kth (L : List (List String)) (oracle : String → Bool)
    (pre : List String) (p : String) (post : List String)
    (hsplit : passwordsList L = pre ++ p :: post)
    (hpre : ∀ q ∈ pre, oracle q = false) (hp : oracle p = true) :
    runSearch oracle L = (some p, pre.length, pre.length + 1) := by
  rw [runSearch, hsplit, loop_found oracle pre p post 0 0 hpre hp]
  simp

/-- C3 witness: alphabets `["a"]` and `["0", "1"]` enumerate `"a0"` then
`"a1"`; an oracle matching exactly `"a1"` succeeds on the second
candidate after exactly two oracle calls. -/
theorem oracle_match_kth_witness :
    passwordsList [["a"], ["0", "1"]] = ["a0"] ++ "a1" :: [] ∧
    (∀ q ∈ ["a0"], (fun s => s == "a1") q = false) ∧
    (fun s => s == "a1") "a1" = true ∧
    runSearch (fun s => s == "a1") [["a"], ["0", "1"]] = (some "a1", 1, 2) :=
  ⟨by decide, by decide, by decide,
    oracle_match_kth [["a"], ["0", "1"]] (fun s => s == "a1") ["a0"] "a1" []
      (by decide) (by decide) (by decide)⟩

/-! ### The empty-alphabet edge case -/

lemma pyproduct_eq_nil_of_mem (L : List (List String)) (h : [] ∈ L) :
    pyproduct L = [] := by
  induction L with
  | nil => cases h
  | cons a L ih =>
    rcases List.mem_cons.1 h with ha | hL
    · rw [pyproduct, ← ha]
      rfl
    · rw [pyproduct, ih hL]
      simp

lemma np_foldl_from_zero (l : List ℕ) :
    l.foldl (fun (acc : ℤ) (n : ℕ) => int64wrap (acc * (n : ℤ))) 0 = 0 := by
  induction l with
  | nil => rfl
  | cons x l ih =>
    have h : int64wrap (0 * (x : ℤ)) = 0 := by
      rw [zero_mul]
      decide
    rw [List.foldl_cons, h, ih]

lemma np_foldl_zero_mem (l : List ℕ) :
    ∀ acc : ℤ, 0 ∈ l →
      l.foldl (fun (acc : ℤ) (n : ℕ) => int64wrap (acc * (n : ℤ))) acc = 0 := by
  induction l with
  | nil => intro acc h; cases h
  | cons x l ih =>
    intro acc h
    rcases List.mem_cons.1 h with hx | hl
    · rw [List.foldl_cons, ← hx]
      simp only [Nat.cast_zero, mul_zero]
      have h0 : int64wrap 0 = 0 := by decide
      rw [h0, np_foldl_from_zero]
    · rw [List.foldl_cons, ih _ hl]

/-- C4: a candidate list containing an alphabet that normalizes to the
empty sequence has search-space size zero — both the true product and
the int64 `np.product` — an empty enumeration, and the search returns at
once with no success, zero counted attempts and zero oracle calls; the
run is an ordinary return, not an error. -/
theorem empty_alphabet_exhausted (L : List (List String)) (oracle : String → Bool)
    (h : [] ∈ L) :
    searchSpace L = 0 ∧ np_product (L.map List.length) = 0 ∧
    passwordsList L = [] ∧ runSearch oracle L = (none, 0, 0) := by
  have hnil : pyproduct L = [] := pyproduct_eq_nil_of_mem L h
  have hpw : passwordsList L = [] := by rw [passwordsList, hnil]; rfl
  refine ⟨?_, ?_, hpw, ?_⟩
  · exact List.prod_eq_zero (List.mem_map.2 ⟨[], h, rfl⟩)
  · exact np_foldl_zero_mem (L.map List.length) 1 (List.mem_map.2 ⟨[], h, rfl⟩)
  · rw [runSearch, hpw]
    rfl

/-- C4 witness: the concrete candidate list `[["a"], []]` with a
never-matching oracle. -/
theorem empty_alphabet_exhausted_witness :
    ([] : List String) ∈ [["a"], []] ∧
    searchSpace [["a"], []] = 0 ∧
    np_product ([["a"], []].map List.length) = 0 ∧
    passwordsList [["a"], []] = [] ∧
    runSearch (fun _ => false) [["a"], []] = (none, 0, 0) := by
  refine ⟨by decide, ?_⟩
  have := empty_alphabet_exhausted [["a"], []] (fun _ => false) (by decide)
  exact this

/-! ### Zero elapsed time in rate computations -/

/-- C5 counterexample: the progress event's `count / elapsed_time` and
the summary's `count / total_time` are evaluated unconditionally; at an
elapsed time of exactly zero the division raises `ZeroDivisionError`
(modelled by `none`) instead of being skipped or reported as
undefined. -/
theorem rate_divzero_counterexample :
    passwords_per_sec 10000 0 = none ∧ summary_rate 0 0 = none := by
  constructor <;> simp [passwords_per_sec, summary_rate, pydiv]

/-- C5 (amended): the rate computations contain no guard for zero
elapsed time; they divide unconditionally, so they are free of division
by zero exactly when the elapsed time is nonzero, in which case both
rates are the plain quotient. -/
theorem rate_defined_of_elapsed_ne_zero (count : ℕ) (elapsed : ℚ)
    (h : elapsed ≠ 0) :
    passwords_per_sec count elapsed = some ((count : ℚ) / elapsed) ∧
    summary_rate count elapsed = some ((count : ℚ) / elapsed) := by
  constructor <;> simp [passwords_per_sec, summary_rate, pydiv, h]

/-- C5 witness: a nonzero elapsed time yields a defined rate. -/
theorem rate_defined_witness :
    (2 : ℚ) ≠ 0 ∧ passwords_per_sec 100 2 = some ((100 : ℚ) / 2) ∧
    summary_rate 100 2 = some ((100 : ℚ) / 2) :=
  ⟨by norm_num,
    (rate_defined_of_elapsed_ne_zero 100 2 (by norm_num)).1,
    (rate_defined_of_elapsed_ne_zero 100 2 (by norm_num)).2⟩

/-! ### Oracle failures -/

/-- C7 (amended): an oracle signal that is neither a clean match nor a
clean `PasswordError` aborts the search at once: the underlying error
propagates as a value distinguishable from any boolean guess result, the
failure counter is not incremented for it, and no later candidate is
tried — but the propagated error does not report the attempts made so
far. -/
theorem oracle_error_aborts (openPdf : String → OpenResult)
    (pre : List String) (p : String) (post : List String) (c k : ℕ) (e : String)
    (hpre : ∀ q ∈ pre, openPdf q = .passwordError)
    (hp : openPdf p = .otherError e) :
    loopExc openPdf (pre ++ p :: post) c k =
      (.error e, c + pre.length, k + pre.length + 1) := by
  induction pre generalizing c k with
  | nil =>
    rw [List.nil_append]
    simp [loopExc, check_password, hp]
  | cons q pre ih =>
    rw [List.cons_append]
    have hq : openPdf q = .passwordError := hpre q (List.mem_cons_self q pre)
    have htail : ∀ r ∈ pre, openPdf r = .passwordError :=
      fun r hr => hpre r (List.mem_cons_of_mem q hr)
    simp only [loopExc, check_password, hq]
    rw [ih (c + 1) (k + 1) htail]
    simp [List.length_cons]
    omega

/-- C7 witness: an oracle erroring on the very first candidate aborts
with that error after one call and zero counted attempts. -/
theorem oracle_error_aborts_witness :
    (∀ q ∈ ([] : List String), (fun _ => OpenResult.otherError "broken") q = .passwordError) ∧
    (fun _ => OpenResult.otherError "broken") "a" = OpenResult.otherError "broken" ∧
    loopExc (fun _ => OpenResult.otherError "broken") ([] ++ "a" :: ["b"]) 0 0 =
      (.error "broken", 0, 1) := by
  refine ⟨fun q hq => absurd hq (List.not_mem_nil q), rfl, ?_⟩
  have := oracle_error_aborts (fun _ => OpenResult.otherError "broken")
    [] "a" ["b"] 0 0 "broken" (fun q hq => absurd hq (List.not_mem_nil q)) rfl
  simpa using this

/-- C7 counterexample: the caller-visible result of a run aborted by an
oracle failure is only the propagated error, carrying no attempt count:
a run that errored on the first candidate (zero prior attempts, one
oracle call) and a run that errored on the third (two prior attempts,
three oracle calls) return identical values. -/
theorem oracle_error_no_attempt_report :
    check_passwordsExc (fun _ => OpenResult.otherError "malformed")
      [PyVal.list ["a", "b", "c"]] = .error "malformed" ∧
    check_passwordsExc
      (fun s => if s = "c" then OpenResult.otherError "malformed" else OpenResult.passwordError)
      [PyVal.list ["a", "b", "c"]] = .error "malformed" ∧
    (loopExc (fun _ => OpenResult.otherError "malformed")
      (passwordsList (normalize_combination [PyVal.list ["a", "b", "c"]])) 0 0).2.2 = 1 ∧
    (loopExc
      (fun s => if s = "c" then OpenResult.otherError "malformed" else OpenResult.passwordError)
      (passwordsList (normalize_combination [PyVal.list ["a", "b", "c"]])) 0 0).2.2 = 3 :=
  ⟨rfl, rfl, rfl, rfl⟩

/-! ### Determinism of the search -/

/-- The search loop of lines 66-73 as a big-step relation on the
remaining candidates and the current attempt count: `CrackFrom oracle ps
c (success, count)` holds of every terminating execution of the loop
body from that state. -/
inductive CrackFrom (oracle : String → Bool) :
    List String → ℕ → Option String × ℕ → Prop
  | exhausted (c : ℕ) : CrackFrom oracle [] c (none, c)
  | found (p : String) (rest : List String) (c : ℕ) :
      oracle p = true → CrackFrom oracle (p :: rest) c (some p, c)
  | step (p : String) (rest : List String) (c : ℕ) (out : Option String × ℕ) :
      oracle p = false → CrackFrom oracle rest (c + 1) out →
      CrackFrom oracle (p :: rest) c out

lemma crackFrom_det (oracle : String → Bool) (ps : List String) (c : ℕ)
    (o1 o2 : Option String × ℕ)
    (h1 : CrackFrom oracle ps c o1) (h2 : CrackFrom oracle ps c o2) :
    o1 = o2 := by
  induction h1 generalizing o2 with
  | exhausted c =>
    cases h2
    rfl
  | found p rest c hp =>
    cases h2 with
    | found _ _ _ _ => rfl
    | step _ _ _ _ hfalse _ => rw [hp] at hfalse; cases hfalse
  | step p rest c out hp hrec ih =>
    cases h2 with
    | found _ _ _ htrue => rw [hp] at htrue; cases htrue
    | step _ _ _ _ _ hrec2 => exact ih _ hrec2

/-- Every execution of the functional loop realizes the relation, for
any starting value of the call counter. -/
lemma loop_realizes_crackFrom (oracle : String → Bool) :
    ∀ (ps : List String) (c k : ℕ),
      CrackFrom oracle ps c ((loop oracle ps c k).1, (loop oracle ps c k).2.1) := by
  intro ps
  induction ps with
  | nil => intro c k; exact CrackFrom.exhausted c
  | cons p ps ih =>
    intro c k
    by_cases hp : oracle p = true
    · rw [loop, if_pos hp]
      exact CrackFrom.found p ps c hp
    · rw [loop, if_neg hp]
      exact CrackFrom.step p ps c _ (Bool.not_eq_true _ ▸ hp) (ih (c + 1) (k + 1))

/-- C8: the search is deterministic — two executions of the engine over
the same candidate list with the same deterministic oracle terminate
with the same outcome and the same attempt count.  Normalization itself
is a function of the input (`as_list`; the stored set iteration order is
fixed for the process), so both runs consume the identical per-position
enumeration. -/
theorem search_deterministic (oracle : String → Bool) (specs : List PyVal)
    (o1 o2 : Option String × ℕ)
    (h1 : CrackFrom oracle (passwordsList (normalize_combination specs)) 0 o1)
    (h2 : CrackFrom oracle (passwordsList (normalize_combination specs)) 0 o2) :
    o1 = o2 :=
  crackFrom_det oracle (passwordsList (normalize_combination specs)) 0 o1 o2 h1 h2

/-- C8 witness: two executions over the one-candidate list `["a"]`. -/
theorem search_deterministic_witness :
    CrackFrom (fun _ => false) (passwordsList (normalize_combination [PyVal.list ["a"]]))
      0 (none, 1) ∧
    ((none, 1) : Option String × ℕ) = (none, 1) := by
  have hpw : passwordsList (normalize_combination [PyVal.list ["a"]]) = ["a"] := by decide
  have d : CrackFrom (fun _ => false)
      (passwordsList (normalize_combination [PyVal.list ["a"]])) 0 (none, 1) := by
    rw [hpw]
    exact CrackFrom.step "a" [] 0 (none, 1) rfl (CrackFrom.exhausted 1)
  exact ⟨d, search_deterministic (fun _ => false) [PyVal.list ["a"]] (none, 1) (none, 1) d d⟩

/-! ### Absence of a cancellation mechanism -/

/-- C9 (amended): `check_passwords` accepts no cancellation signal — its
only inputs are the document path, the candidate list and the logging
interval — and with an oracle that never matches the loop always runs
the full space: exactly one oracle call per candidate, terminating as
exhausted; success and exhaustion (plus a propagated oracle error) are
the only ways a search ends. -/
theorem no_cancellation_runs_to_exhaustion (L : List (List String)) :
    runSearch (fun _ => false) L = (none, searchSpace L, searchSpace L) := by
  rw [runSearch, loop_all_false _ _ 0 0 (fun q _ => rfl)]
  rw [passwordsList, List.length_map, length_pyproduct]
  simp

/-- C9 counterexample: in the claim's scenario — a never-matching oracle
with cancellation requested after the third attempt — the engine cannot
stop at three attempts: on a five-candidate space it performs all five
oracle calls and ends exhausted with five counted attempts, and there is
no input through which a cancellation request could reach it. -/
theorem no_cancellation_counterexample :
    runSearch (fun _ => false) [["0", "1", "2", "3", "4"]] = (none, 5, 5) ∧
    runSearch (fun _ => false) [["0", "1", "2", "3", "4"]] ≠ (none, 3, 3) :=
  ⟨by decide, by decide⟩

/-! ### A string specification is one symbol, not a character set -/

lemma length_mem_pyproduct (A : List (List String)) (t : List String)
    (h : t ∈ pyproduct A) : t.length = A.length := by
  induction A generalizing t with
  | nil =>
    rw [List.mem_singleton.1 h]
    rfl
  | cons a A ih =>
    rw [pyproduct] at h
    obtain ⟨x, _, hmem⟩ := List.mem_flatMap.1 h
    obtain ⟨u, hu, rfl⟩ := List.mem_map.1 hmem
    rw [List.length_cons, List.length_cons, ih u hu]

lemma mem_pyproduct_append (A B : List (List String)) (t : List String)
    (h : t ∈ pyproduct (A ++ B)) :
    ∃ u v, u ∈ pyproduct A ∧ v ∈ pyproduct B ∧ t = u ++ v := by
  induction A generalizing t with
  | nil => exact ⟨[], t, List.mem_singleton.2 rfl, h, (List.nil_append t).symm⟩
  | cons a A ih =>
    rw [List.cons_append, pyproduct] at h
    obtain ⟨x, hx, hmem⟩ := List.mem_flatMap.1 h
    obtain ⟨u0, hu0, rfl⟩ := List.mem_map.1 hmem
    obtain ⟨u, v, hu, hv, rfl⟩ := ih u0 hu0
    refine ⟨x :: u, v, ?_, hv, rfl⟩
    rw [pyproduct]
    exact List.mem_flatMap.2 ⟨x, hx, List.mem_map.2 ⟨u, hu, rfl⟩⟩

lemma string_join_foldl (l : List String) :
    ∀ acc : String, l.foldl (fun r s => r ++ s) acc = acc ++ String.join l := by
  induction l with
  | nil =>
    intro acc
    rw [List.foldl_nil]
    exact (String.append_empty acc).symm
  | cons s l ih =>
    intro acc
    rw [List.foldl_cons, ih (acc ++ s)]
    have hjoin : String.join (s :: l) = s ++ String.join l := by
      show (s :: l).foldl (fun r s => r ++ s) "" = s ++ String.join l
      rw [List.foldl_cons, ih ("" ++ s), String.empty_append]
    rw [hjoin, String.append_assoc]

lemma string_join_cons (s : String) (l : List String) :
    String.join (s :: l) = s ++ String.join l := by
  show (s :: l).foldl (fun r s => r ++ s) "" = s ++ String.join l
  rw [List.foldl_cons, string_join_foldl l ("" ++ s), String.empty_append]

lemma string_join_append (l1 l2 : List String) :
    String.join (l1 ++ l2) = String.join l1 ++ String.join l2 := by
  show (l1 ++ l2).foldl (fun r s => r ++ s) "" = String.join l1 ++ String.join l2
  rw [List.foldl_append, string_join_foldl l2]
  rfl

/-- C10: a string passed as an alphabet specification — however many
characters it has — normalizes to the one-element sequence holding it,
not to its character set: it fills one whole password position, so every
enumerated tuple carries the entire string at that position and every
enumerated password decomposes around it. -/
theorem string_spec_is_single_symbol (pre post : List PyVal) (s : String) :
    as_list (PyVal.str s) = [s] ∧
    (∀ t ∈ pyproduct (normalize_combination (pre ++ PyVal.str s :: post)),
      t[pre.length]? = some s) ∧
    (∀ pw ∈ passwordsList (normalize_combination (pre ++ PyVal.str s :: post)),
      ∃ a b : String, pw = a ++ s ++ b) := by
  have hsplit : normalize_combination (pre ++ PyVal.str s :: post) =
      normalize_combination pre ++ [s] :: normalize_combination post := by
    rw [normalize_combination, List.map_append, List.map_cons]
    rfl
  have hdecomp : ∀ t ∈ pyproduct (normalize_combination (pre ++ PyVal.str s :: post)),
      ∃ u w, u ∈ pyproduct (normalize_combination pre) ∧
        u.length = pre.length ∧ t = u ++ s :: w := by
    intro t ht
    rw [hsplit] at ht
    obtain ⟨u, v, hu, hv, rfl⟩ :=
      mem_pyproduct_append (normalize_combination pre) ([s] :: normalize_combination post) t ht
    rw [pyproduct] at hv
    obtain ⟨x, hx, hmem⟩ := List.mem_flatMap.1 hv
    obtain ⟨w, _, rfl⟩ := List.mem_map.1 hmem
    rw [List.mem_singleton.1 hx]
    have hlen : u.length = pre.length := by
      rw [length_mem_pyproduct (normalize_combination pre) u hu,
        normalize_combination, List.length_map]
    exact ⟨u, w, hu, hlen, rfl⟩
  refine ⟨rfl, ?_, ?_⟩
  · intro t ht
    obtain ⟨u, w, _, hlen, rfl⟩ := hdecomp t ht
    rw [← hlen, List.getElem?_append_right (Nat.le_refl u.length),
      Nat.sub_self, List.getElem?_cons_zero]
  · intro pw hpw
    obtain ⟨t, ht, rfl⟩ := List.mem_map.1 hpw
    obtain ⟨u, w, _, _, rfl⟩ := hdecomp t ht
    refine ⟨String.join u, String.join w, ?_⟩
    rw [string_join_append, string_join_cons, ← String.append_assoc]

/-- C10 witness: with a two-symbol first alphabet and the string `"ab"`
as the second specification, the enumerated tuple `["x", "ab"]` carries
the whole string at position 1. -/
theorem string_spec_is_single_symbol_witness :
    ["x", "ab"] ∈
      pyproduct (normalize_combination ([PyVal.list ["x", "y"]] ++ PyVal.str "ab" :: [])) ∧
    ["x", "ab"][([PyVal.list ["x", "y"]] : List PyVal).length]? = some "ab" := by
  have h : ["x", "ab"] ∈
      pyproduct (normalize_combination ([PyVal.list ["x", "y"]] ++ PyVal.str "ab" :: [])) := by
    decide
  exact ⟨h, (string_spec_is_single_symbol [PyVal.list ["x", "y"]] [] "ab").2.1 ["x", "ab"] h⟩
